import Mathlib

/-!
Verification development for the roq-api market-by-order (MBO) cache and the
RateLimitType enumeration wrapper.

The repository ships `roq::cache::MarketByOrder` as an abstract interface
(pure virtual methods); the concrete book implementation is not part of the
sources here, so the book's data model and operations are modelled from the
specification (sections 3, 4, 7 of the design document), as marked on each
definition.  `roq::RateLimitType` is concrete in the sources and is embedded
directly.
-/

namespace MBO

/-- Modelled from the spec: the side of the book (bids vs asks); the concrete
book implementation behind `roq::cache::MarketByOrder` is not in the sources. -/
inductive Side where
  | buy
  | sell
deriving DecidableEq

/-- Modelled from the spec: an individual resting order.  The identifier is an
opaque token (modelled as a numeral), quantity is kept in the integer
representation fixed by `quantity_increment`. -/
structure Order where
  orderId : Nat
  quantity : Nat
deriving DecidableEq

/-- Modelled from the spec: a price level: a price plus the FIFO-ordered list
of resting orders at that price.  Prices are kept in the integer
representation fixed by `price_increment`. -/
structure PriceLevel where
  price : Int
  orders : List Order
deriving DecidableEq

/-- Modelled from the spec: the action tag of an MBOUpdate. -/
inductive UpdateAction where
  | create
  | modify
  | cancel
deriving DecidableEq

/-- Modelled from the spec: the MBOUpdate wire/extraction shape (order id,
price, quantity, action); the side is implied by which of the two per-side
lists the update travels in, matching `operator()(bids, asks)`. -/
structure MBOUpdate where
  orderId : Nat
  price : Int
  quantity : Nat
  action : UpdateAction
deriving DecidableEq

/-- Modelled from the spec: the per-instrument book: `max_depth`
(0 = unbounded), the two ordered collections of price levels (bids descending
by price, asks ascending) and the last-update `exchange_sequence`. -/
structure Book where
  maxDepth : Nat
  bids : List PriceLevel
  asks : List PriceLevel
  exchangeSequence : Int
deriving DecidableEq

/-- Bid-side ordering: price `p` is better than `q` when `p` is higher. -/
def bidBetter (p q : Int) : Bool := decide (q < p)

/-- Ask-side ordering: price `p` is better than `q` when `p` is lower. -/
def askBetter (p q : Int) : Bool := decide (p < q)

/-- Modelled from the spec: `create` inserts a new Order at the tail of its
price level, creating the level if absent at the correct sorted position
(best price first). -/
def insertLevel (better : Int → Int → Bool) (p : Int) (o : Order) :
    List PriceLevel → List PriceLevel
  | [] => [⟨p, [o]⟩]
  | l :: ls =>
    if p = l.price then ⟨l.price, l.orders ++ [o]⟩ :: ls
    else if better p l.price then ⟨p, [o]⟩ :: l :: ls
    else l :: insertLevel better p o ls

/-- Modelled from the spec: depth enforcement; with `cap > 0` only the best
`cap` levels are retained, the worst levels being evicted. -/
def truncate (cap : Nat) (ls : List PriceLevel) : List PriceLevel :=
  if cap = 0 then ls else ls.take cap

/-- Does the level contain an order with the given id? -/
def levelHasOrder (oid : Nat) (l : PriceLevel) : Bool :=
  l.orders.any (fun o => o.orderId == oid)

/-- Modelled from the spec: `cancel` removes the Order and, if its level
becomes empty, removes the level in the same operation. -/
def cancelOrder (oid : Nat) : List PriceLevel → List PriceLevel
  | [] => []
  | l :: ls =>
    if levelHasOrder oid l then
      let rest := l.orders.filter (fun o => o.orderId != oid)
      if rest.isEmpty then ls else ⟨l.price, rest⟩ :: ls
    else l :: cancelOrder oid ls

/-- Modelled from the spec: `modify` with unchanged price replaces the
quantity in place, without changing queue position. -/
def setQuantity (oid : Nat) (q : Nat) (ls : List PriceLevel) : List PriceLevel :=
  ls.map (fun l =>
    ⟨l.price, l.orders.map (fun o => if o.orderId = oid then ⟨oid, q⟩ else o)⟩)

/-- Find the price level holding the order with the given id, together with
the order itself. -/
def findOrderPrice (oid : Nat) : List PriceLevel → Option (Int × Order)
  | [] => none
  | l :: ls =>
    match l.orders.find? (fun o => o.orderId == oid) with
    | some o => some (l.price, o)
    | none => findOrderPrice oid ls

/-- Modelled from the spec (section 4.1): apply one MBOUpdate to one side of
the book.  `create` inserts at the tail of its (possibly new) level and depth
is enforced; `modify` with same price replaces quantity in place, with a new
price it is treated as cancel+create; `cancel` removes the order and drops
the level when it empties.  A modify/cancel of an unknown order id raises
UnknownOrderError and leaves the book unchanged. -/
def applyUpdate (better : Int → Int → Bool) (cap : Nat)
    (ls : List PriceLevel) (u : MBOUpdate) : List PriceLevel :=
  match u.action with
  | .create => truncate cap (insertLevel better u.price ⟨u.orderId, u.quantity⟩ ls)
  | .modify =>
    match findOrderPrice u.orderId ls with
    | none => ls
    | some (p, _) =>
      if p = u.price then setQuantity u.orderId u.quantity ls
      else truncate cap (insertLevel better u.price ⟨u.orderId, u.quantity⟩
        (cancelOrder u.orderId ls))
  | .cancel =>
    match findOrderPrice u.orderId ls with
    | none => ls
    | some _ => cancelOrder u.orderId ls

/-- Apply a batch of MBOUpdates to one side, in order. -/
def applySide (better : Int → Int → Bool) (cap : Nat)
    (ls : List PriceLevel) (us : List MBOUpdate) : List PriceLevel :=
  us.foldl (applyUpdate better cap) ls

/-- Modelled from the spec: `operator()(bids, asks)` — apply an
already-ordered, already-consistent batch of per-side MBOUpdates. -/
def applySequential (bids asks : List MBOUpdate) (b : Book) : Book :=
  { b with
    bids := applySide bidBetter b.maxDepth b.bids bids
    asks := applySide askBetter b.maxDepth b.asks asks }

/-- Modelled from the spec: `clear()` drops all levels/orders and resets the
provenance fields; the reference data (max_depth, increments) is kept. -/
def clearBook (b : Book) : Book :=
  { b with bids := [], asks := [], exchangeSequence := 0 }

/-- Modelled from the spec: a MarketByOrderUpdate event: per-side update
batches plus the exchange sequence number of the event. -/
structure MarketByOrderUpdate where
  bids : List MBOUpdate
  asks : List MBOUpdate
  exchangeSequence : Int
deriving DecidableEq

/-- Modelled from the spec (I6, section 7): feeding a MarketByOrderUpdate
whose sequence number is not greater than the book's current
`exchange_sequence` leaves the book untouched and raises
SequenceRegressionWarning (the Boolean flag of the result); otherwise the
batch is applied and the sequence advances. -/
def applyNoisy (b : Book) (u : MarketByOrderUpdate) : Book × Bool :=
  if u.exchangeSequence ≤ b.exchangeSequence then (b, true)
  else ({ applySequential u.bids u.asks b with
          exchangeSequence := u.exchangeSequence }, false)

/-- Modelled from the spec: a freshly constructed book: configured depth
bound, both sides empty, provenance reset. -/
def freshBook (cap : Nat) : Book := ⟨cap, [], [], 0⟩

/-- Modelled from the spec: the book states reachable from construction by
sequential batches, noisy (sequence-checked) events and clears. -/
inductive Reachable : Book → Prop where
  | init (cap : Nat) : Reachable (freshBook cap)
  | seqStep (b : Book) (bids asks : List MBOUpdate) :
      Reachable b → Reachable (applySequential bids asks b)
  | noisyStep (b : Book) (u : MarketByOrderUpdate) :
      Reachable b → Reachable (applyNoisy b u).1
  | clearStep (b : Book) : Reachable b → Reachable (clearBook b)

/-- The levels of the requested side. -/
def sideLevels (b : Book) : Side → List PriceLevel
  | .buy => b.bids
  | .sell => b.asks

/-- Total quantity of a list of orders. -/
def sumQ (os : List Order) : Nat := (os.map Order.quantity).sum

/-- Modelled from the spec: `exists(side, price)`. -/
def levelExists (b : Book) (s : Side) (p : Int) : Bool :=
  (sideLevels b s).any (fun l => l.price == p)

/-- Does any order with the given id rest on the given side? -/
def orderExists (b : Book) (s : Side) (oid : Nat) : Bool :=
  (sideLevels b s).any (levelHasOrder oid)

/-- Modelled from the spec: `total_quantity(side, price)` — the sum of all
order quantities at the level; `none` models the NaN sentinel returned when
the level does not exist. -/
def total_quantity (b : Book) (s : Side) (p : Int) : Option Nat :=
  ((sideLevels b s).find? (fun l => l.price == p)).map (fun l => sumQ l.orders)

/-- Modelled from the spec: `accumulated_quantity(side, price,
excluding_price)` — the sum of quantities from the best price through `price`
(inclusive, or exclusive when the flag is set); `none` models the NaN
sentinel returned when `price` itself has no level. -/
def accumulated_quantity (b : Book) (s : Side) (p : Int)
    (excludingPrice : Bool) : Option Nat :=
  match (sideLevels b s).find? (fun l => l.price == p) with
  | none => none
  | some l =>
    some ((((sideLevels b s).takeWhile (fun m => m.price != p)).map
      (fun m => sumQ m.orders)).sum + (if excludingPrice then 0 else sumQ l.orders))

/-- Modelled from the spec: the queue-position result; every field defaults
to the NaN sentinel, modelled as `none`. -/
structure Position where
  quantity : Option Nat := none
  before : Option Nat := none
  total : Option Nat := none
deriving DecidableEq

/-- Queue position computed against the levels of one side. -/
def qposLevels (ls : List PriceLevel) (oid : Nat) : Position :=
  match ls.find? (levelHasOrder oid) with
  | none => {}
  | some l =>
    match l.orders.find? (fun o => o.orderId == oid) with
    | none => {}
    | some o =>
      ⟨some o.quantity,
       some (sumQ (l.orders.takeWhile (fun m => m.orderId != oid))),
       some (sumQ l.orders)⟩

/-- Modelled from the spec: `get_queue_position(side, order_id)` — for an
existing order its own quantity, the quantity ahead of it in FIFO priority
and the level total; all three fields are the NaN sentinel (`none`) when the
order is absent. -/
def get_queue_position (b : Book) (s : Side) (oid : Nat) : Position :=
  qposLevels (sideLevels b s) oid

/-- Modelled from the spec: `create_snapshot` for one side: every resting
order, best level first, FIFO order within a level, emitted as a normalized
`create` MBOUpdate. -/
def create_snapshot_side : List PriceLevel → List MBOUpdate
  | [] => []
  | l :: ls =>
    l.orders.map (fun o => ⟨o.orderId, l.price, o.quantity, UpdateAction.create⟩)
      ++ create_snapshot_side ls

/-- Modelled from the spec: `create_snapshot(bids, asks, callback)` — the two
emitted per-side MBOUpdate lists. -/
def create_snapshot (b : Book) : List MBOUpdate × List MBOUpdate :=
  (create_snapshot_side b.bids, create_snapshot_side b.asks)

/-- The (side, price, order id, quantity) tuples of one side. -/
def sideOrders (s : Side) : List PriceLevel → List (Side × Int × Nat × Nat)
  | [] => []
  | l :: ls =>
    l.orders.map (fun o => (s, l.price, o.orderId, o.quantity)) ++ sideOrders s ls

/-- All (side, price, order id, quantity) tuples of the book. -/
def bookOrders (b : Book) : List (Side × Int × Nat × Nat) :=
  sideOrders .buy b.bids ++ sideOrders .sell b.asks

/-- Replaying a full snapshot into a freshly cleared book of the same
configuration. -/
def replayed (b : Book) : Book :=
  applySequential (create_snapshot b).1 (create_snapshot b).2 (clearBook b)

/-- Modelled from the spec (design notes): the explicit fixed-width
accumulator bound for per-level quantity aggregation; sums beyond it are
reported as the positive-infinity sentinel.  2^53 is the largest range over
which the double-precision accumulator of the original code is exact. -/
def QBOUND : Nat := 2 ^ 53

/-- Modelled from the spec: an aggregated quantity: either an exact value or
the positive-infinity overflow sentinel. -/
inductive AggQty where
  | val (n : Nat)
  | posInf
deriving DecidableEq

/-- Add one order quantity to the running aggregate, saturating to the
infinity sentinel when the accumulator bound is exceeded. -/
def addQty : AggQty → Nat → AggQty
  | .posInf, _ => .posInf
  | .val m, n => if m + n ≤ QBOUND then .val (m + n) else .posInf

/-- Aggregate the quantities of a level's orders. -/
def aggregate (os : List Order) : AggQty :=
  os.foldl (fun a o => addQty a o.quantity) (.val 0)

/-- Modelled from the spec: the Layer aggregate shape: price, aggregated
quantity (with overflow sentinel) and order count. -/
structure Layer where
  price : Int
  quantity : AggQty
  count : Nat
deriving DecidableEq

/-- Modelled from the spec: aggregated Layer rows for one side;
`cap = 0` means all retained levels, otherwise the request is capped at
`min(cap, max_depth)` when the book's depth bound is set. -/
def layersOfSide (cap bookMax : Nat) (ls : List PriceLevel) : List Layer :=
  (truncate (if cap = 0 then 0 else if bookMax = 0 then cap else min cap bookMax) ls).map
    (fun l => ⟨l.price, aggregate l.orders, l.orders.length⟩)

/-- Modelled from the spec: `extract(layers, max_depth)` — the per-side Layer
rows. -/
def extract_layers (b : Book) (cap : Nat) : List Layer × List Layer :=
  (layersOfSide cap b.maxDepth b.bids, layersOfSide cap b.maxDepth b.asks)

/-- One side is sorted best price first, strictly (no duplicate prices). -/
def SortedSide (better : Int → Int → Bool) (ls : List PriceLevel) : Prop :=
  ls.Pairwise (fun a c => better a.price c.price = true)

/-- No price level of the side is empty. -/
def NoEmptySide (ls : List PriceLevel) : Prop := ∀ l ∈ ls, l.orders ≠ []

/-- The depth bound is respected (0 means unbounded). -/
def DepthOk (cap : Nat) (ls : List PriceLevel) : Prop :=
  cap = 0 ∨ ls.length ≤ cap

/-- The structural invariant of one side of the book. -/
def SideInv (better : Int → Int → Bool) (cap : Nat) (ls : List PriceLevel) : Prop :=
  SortedSide better ls ∧ NoEmptySide ls ∧ DepthOk cap ls

/-- The structural invariant of the whole book. -/
def BookInv (b : Book) : Prop :=
  SideInv bidBetter b.maxDepth b.bids ∧ SideInv askBetter b.maxDepth b.asks

/-- Apply a batch of MBOUpdates to the named side of the book, the other
side's batch being empty. -/
def applyOnSide (b : Book) (s : Side) (us : List MBOUpdate) : Book :=
  match s with
  | .buy => applySequential us [] b
  | .sell => applySequential [] us b

/-- A small concrete book used to exhibit reachable states: two bid levels
and one ask level inserted into a fresh unbounded book. -/
def demoBook : Book :=
  applySequential [⟨1, 100, 5, .create⟩, ⟨2, 99, 4, .create⟩]
    [⟨3, 101, 7, .create⟩] (freshBook 0)

/-- A concrete book with depth bound 2 into which three distinct bid prices
were inserted. -/
def demoBook2 : Book :=
  applySequential [⟨1, 100, 5, .create⟩, ⟨2, 99, 4, .create⟩, ⟨3, 98, 3, .create⟩]
    [] (freshBook 2)

/-- A concrete book whose single bid level aggregates past the accumulator
bound (2^53 + 1). -/
def demoBookBig : Book :=
  applySequential [⟨1, 100, 9007199254740992, .create⟩, ⟨2, 100, 1, .create⟩]
    [] (freshBook 0)

end MBO

namespace roq

/-- The underlying values of the declared `RateLimitType::type_t`
enumerators: UNDEFINED = 0, ORDER_ACTION = 1, CREATE_ORDER = 2. -/
def RateLimitType.enumValues : List Nat := [0, 1, 2]

/-- The declared enumerator names, in declaration order. -/
def RateLimitType.enumNames : List String := ["UNDEFINED", "ORDER_ACTION", "CREATE_ORDER"]

/-- `roq::RateLimitType`: a packed wrapper holding `type_t type_`.  `type_t`
has the fixed underlying type `uint8_t`, so as a C++ value it ranges over
0..255; we model the stored value as its underlying numeral. -/
structure RateLimitType where
  type_ : Nat
deriving DecidableEq

/-- `magic_enum::enum_cast<type_t>(uint8_t)`: the enumerator with that
underlying value, when declared. -/
def RateLimitType.enum_cast_value (v : Nat) : Option Nat :=
  if v ∈ RateLimitType.enumValues then some v else none

/-- `magic_enum::enum_cast<type_t>(std::string_view)`: the enumerator with
that name, when declared. -/
def RateLimitType.enum_cast_name (s : String) : Option Nat :=
  ((RateLimitType.enumNames.zip RateLimitType.enumValues).find?
    (fun q => q.1 == s)).map (fun q => q.2)

/-- The default constructor `RateLimitType()`: `type_` is initialized to
`type_t::UNDEFINED`. -/
def RateLimitType.ctorDefault : RateLimitType := ⟨0⟩

/-- The implicit constructor `RateLimitType(type_t type)`: stores its
argument unvalidated.  A C++ `type_t` value carries any `uint8_t` value, so
the argument is reduced modulo 2^8. -/
def RateLimitType.ofTypeT (t : Nat) : RateLimitType := ⟨t % 256⟩

/-- The explicit constructor `RateLimitType(uint8_t value)`:
`magic_enum::enum_cast<type_t>(value).value_or(type_t::UNDEFINED)`. -/
def RateLimitType.ofUint8 (v : Nat) : RateLimitType :=
  ⟨(RateLimitType.enum_cast_value (v % 256)).getD 0⟩

/-- The explicit constructor `RateLimitType(const std::string_view &value)`:
`magic_enum::enum_cast<type_t>(value).value_or(type_t::UNDEFINED)`. -/
def RateLimitType.ofString (s : String) : RateLimitType :=
  ⟨(RateLimitType.enum_cast_name s).getD 0⟩

/-- `RateLimitType::to_index()`: `magic_enum::enum_index(type_)` followed by
`std::optional::value()`; `none` models the `std::bad_optional_access` throw
when `type_` is not a declared enumerator. -/
def RateLimitType.to_index (x : RateLimitType) : Option Nat :=
  RateLimitType.enumValues.findIdx? (fun v => v == x.type_)

end roq

namespace MBO

theorem bidBetter_trans (a c d : Int) (h1 : bidBetter a c = true)
    (h2 : bidBetter c d = true) : bidBetter a d = true := by
  simp only [bidBetter, decide_eq_true_eq] at *; omega

theorem bidBetter_total (a c : Int) (h : a ≠ c) :
    bidBetter a c = true ∨ bidBetter c a = true := by
  simp only [bidBetter, decide_eq_true_eq]; omega

theorem bidBetter_asym (a c : Int) (h : bidBetter a c = true) :
    bidBetter c a = false := by
  simp only [bidBetter, decide_eq_true_eq, decide_eq_false_iff_not] at *; omega

theorem askBetter_trans (a c d : Int) (h1 : askBetter a c = true)
    (h2 : askBetter c d = true) : askBetter a d = true := by
  simp only [askBetter, decide_eq_true_eq] at *; omega

theorem askBetter_total (a c : Int) (h : a ≠ c) :
    askBetter a c = true ∨ askBetter c a = true := by
  simp only [askBetter, decide_eq_true_eq]; omega

theorem askBetter_asym (a c : Int) (h : askBetter a c = true) :
    askBetter c a = false := by
  simp only [askBetter, decide_eq_true_eq, decide_eq_false_iff_not] at *; omega

theorem price_mem_insertLevel (better : Int → Int → Bool) (p : Int) (o : Order) :
    ∀ ls : List PriceLevel, ∀ m ∈ insertLevel better p o ls,
      m.price = p ∨ m.price ∈ ls.map PriceLevel.price
  | [], m, hm => by
    simp only [insertLevel, List.mem_singleton] at hm
    subst hm; exact Or.inl rfl
  | l :: ls, m, hm => by
    simp only [insertLevel] at hm
    by_cases he : p = l.price
    · simp only [he, if_pos rfl] at hm
      rcases List.mem_cons.mp hm with h | h
      · subst h; exact Or.inr (by simp)
      · exact Or.inr (by simp [List.mem_map]; exact Or.inr ⟨m, h, rfl⟩)
    · rw [if_neg he] at hm
      by_cases hb : better p l.price = true
      · rw [if_pos hb] at hm
        rcases List.mem_cons.mp hm with h | h
        · subst h; exact Or.inl rfl
        · rcases List.mem_cons.mp h with h2 | h2
          · subst h2; exact Or.inr (by simp)
          · exact Or.inr (by simp [List.mem_map]; exact Or.inr ⟨m, h2, rfl⟩)
      · rw [if_neg hb] at hm
        rcases List.mem_cons.mp hm with h | h
        · subst h; exact Or.inr (by simp)
        · rcases price_mem_insertLevel better p o ls m h with h2 | h2
          · exact Or.inl h2
          · exact Or.inr (by simp only [List.map_cons, List.mem_cons]; exact Or.inr h2)

theorem insertLevel_sorted (better : Int → Int → Bool)
    (htr : ∀ a c d, better a c = true → better c d = true → better a d = true)
    (htot : ∀ a c : Int, a ≠ c → better a c = true ∨ better c a = true)
    (p : Int) (o : Order) :
    ∀ ls : List PriceLevel, SortedSide better ls →
      SortedSide better (insertLevel better p o ls)
  | [], _ => by simp [insertLevel, SortedSide]
  | l :: ls, h => by
    rcases List.pairwise_cons.mp h with ⟨hl, hls⟩
    simp only [insertLevel]
    by_cases he : p = l.price
    · rw [if_pos he]
      exact List.pairwise_cons.mpr ⟨fun a ha => hl a ha, hls⟩
    · rw [if_neg he]
      by_cases hb : better p l.price = true
      · rw [if_pos hb]
        refine List.pairwise_cons.mpr ⟨?_, h⟩
        intro a ha
        rcases List.mem_cons.mp ha with h2 | h2
        · subst h2; exact hb
        · exact htr _ _ _ hb (hl a h2)
      · rw [if_neg hb]
        refine List.pairwise_cons.mpr ⟨?_, insertLevel_sorted better htr htot p o ls hls⟩
        intro m hm
        rcases price_mem_insertLevel better p o ls m hm with h2 | h2
        · rw [h2]
          rcases htot l.price p (fun hx => he hx.symm) with h3 | h3
          · exact h3
          · exact absurd h3 (by simpa using hb)
        · rcases List.mem_map.mp h2 with ⟨a, ha, hap⟩
          rw [← hap]; exact hl a ha

theorem insertLevel_noempty (better : Int → Int → Bool) (p : Int) (o : Order) :
    ∀ ls : List PriceLevel, NoEmptySide ls →
      NoEmptySide (insertLevel better p o ls)
  | [], _ => by
    intro m hm
    simp only [insertLevel, List.mem_singleton] at hm
    subst hm; simp
  | l :: ls, h => by
    intro m hm
    simp only [insertLevel] at hm
    by_cases he : p = l.price
    · simp only [he, if_pos rfl] at hm
      rcases List.mem_cons.mp hm with h2 | h2
      · subst h2; simp
      · exact h m (List.mem_cons_of_mem _ h2)
    · rw [if_neg he] at hm
      by_cases hb : better p l.price = true
      · rw [if_pos hb] at hm
        rcases List.mem_cons.mp hm with h2 | h2
        · subst h2; simp
        · exact h m h2
      · rw [if_neg hb] at hm
        rcases List.mem_cons.mp hm with h2 | h2
        · subst h2; exact h m (List.mem_cons_self ..)
        · exact insertLevel_noempty better p o ls
            (fun x hx => h x (List.mem_cons_of_mem _ hx)) m h2

theorem price_mem_cancelOrder (oid : Nat) :
    ∀ ls : List PriceLevel, ∀ m ∈ cancelOrder oid ls,
      m.price ∈ ls.map PriceLevel.price
  | [], m, hm => by simp [cancelOrder] at hm
  | l :: ls, m, hm => by
    simp only [cancelOrder] at hm
    by_cases hf : levelHasOrder oid l = true
    · rw [if_pos hf] at hm
      by_cases hfe : (l.orders.filter (fun o => o.orderId != oid)).isEmpty = true
      · simp only [hfe, if_pos] at hm
        simp only [List.map_cons, List.mem_cons]
        exact Or.inr (List.mem_map_of_mem _ hm)
      · simp only [hfe] at hm
        rcases List.mem_cons.mp hm with h2 | h2
        · subst h2; simp
        · simp only [List.map_cons, List.mem_cons]
          exact Or.inr (List.mem_map_of_mem _ h2)
    · rw [if_neg hf] at hm
      rcases List.mem_cons.mp hm with h2 | h2
      · subst h2; simp
      · simp only [List.map_cons, List.mem_cons]
        exact Or.inr (price_mem_cancelOrder oid ls m h2)

theorem cancelOrder_sorted (better : Int → Int → Bool) (oid : Nat) :
    ∀ ls : List PriceLevel, SortedSide better ls →
      SortedSide better (cancelOrder oid ls)
  | [], _ => by simp [cancelOrder, SortedSide]
  | l :: ls, h => by
    rcases List.pairwise_cons.mp h with ⟨hl, hls⟩
    simp only [cancelOrder]
    by_cases hf : levelHasOrder oid l = true
    · rw [if_pos hf]
      by_cases hfe : (l.orders.filter (fun o => o.orderId != oid)).isEmpty = true
      · simpa [hfe] using hls
      · simp only [hfe, if_false, Bool.false_eq_true]
        exact List.pairwise_cons.mpr ⟨fun a ha => hl a ha, hls⟩
    · rw [if_neg hf]
      refine List.pairwise_cons.mpr ⟨?_, cancelOrder_sorted better oid ls hls⟩
      intro m hm
      rcases List.mem_map.mp (price_mem_cancelOrder oid ls m hm) with ⟨a, ha, hap⟩
      rw [← hap]; exact hl a ha

theorem cancelOrder_noempty (oid : Nat) :
    ∀ ls : List PriceLevel, NoEmptySide ls → NoEmptySide (cancelOrder oid ls)
  | [], _ => by intro m hm; simp [cancelOrder] at hm
  | l :: ls, h => by
    intro m hm
    simp only [cancelOrder] at hm
    by_cases hf : levelHasOrder oid l = true
    · rw [if_pos hf] at hm
      by_cases hfe : (l.orders.filter (fun o => o.orderId != oid)).isEmpty = true
      · simp only [hfe, if_pos] at hm
        exact h m (List.mem_cons_of_mem _ hm)
      · simp only [hfe] at hm
        rcases List.mem_cons.mp hm with h2 | h2
        · subst h2
          simpa [List.isEmpty_iff] using hfe
        · exact h m (List.mem_cons_of_mem _ h2)
    · rw [if_neg hf] at hm
      rcases List.mem_cons.mp hm with h2 | h2
      · subst h2; exact h m (List.mem_cons_self ..)
      · exact cancelOrder_noempty oid ls
          (fun x hx => h x (List.mem_cons_of_mem _ hx)) m h2

theorem cancelOrder_length_le (oid : Nat) :
    ∀ ls : List PriceLevel, (cancelOrder oid ls).length ≤ ls.length
  | [] => by simp [cancelOrder]
  | l :: ls => by
    simp only [cancelOrder]
    by_cases hf : levelHasOrder oid l = true
    · rw [if_pos hf]
      by_cases hfe : (l.orders.filter (fun o => o.orderId != oid)).isEmpty = true
      · simp [hfe]
      · simp [hfe]
    · rw [if_neg hf]
      simpa using cancelOrder_length_le oid ls

theorem setQuantity_sorted (better : Int → Int → Bool) (oid q : Nat)
    (ls : List PriceLevel) (h : SortedSide better ls) :
    SortedSide better (setQuantity oid q ls) := by
  unfold SortedSide setQuantity
  rw [List.pairwise_map]
  exact h

theorem setQuantity_noempty (oid q : Nat) (ls : List PriceLevel)
    (h : NoEmptySide ls) : NoEmptySide (setQuantity oid q ls) := by
  intro m hm
  rcases List.mem_map.mp hm with ⟨l, hl, hlm⟩
  subst hlm
  simpa [List.map_eq_nil_iff] using h l hl

theorem setQuantity_length (oid q : Nat) (ls : List PriceLevel) :
    (setQuantity oid q ls).length = ls.length := by
  simp [setQuantity]

theorem truncate_sorted (better : Int → Int → Bool) (cap : Nat)
    (ls : List PriceLevel) (h : SortedSide better ls) :
    SortedSide better (truncate cap ls) := by
  unfold truncate
  split
  · exact h
  · exact h.sublist (List.take_sublist _ _)

theorem truncate_noempty (cap : Nat) (ls : List PriceLevel)
    (h : NoEmptySide ls) : NoEmptySide (truncate cap ls) := by
  intro m hm
  unfold truncate at hm
  split at hm
  · exact h m hm
  · exact h m (List.mem_of_mem_take hm)

theorem truncate_depthOk (cap : Nat) (ls : List PriceLevel) :
    DepthOk cap (truncate cap ls) := by
  unfold DepthOk truncate
  by_cases hc : cap = 0
  · exact Or.inl hc
  · rw [if_neg hc]
    exact Or.inr (by simpa using Nat.min_le_left cap ls.length)

theorem truncate_eq_self (cap : Nat) (ls : List PriceLevel)
    (h : cap = 0 ∨ ls.length ≤ cap) : truncate cap ls = ls := by
  unfold truncate
  rcases h with h | h
  · rw [if_pos h]
  · split
    · rfl
    · exact List.take_of_length_le h

theorem applyUpdate_sideInv (better : Int → Int → Bool)
    (htr : ∀ a c d, better a c = true → better c d = true → better a d = true)
    (htot : ∀ a c : Int, a ≠ c → better a c = true ∨ better c a = true)
    (cap : Nat) (ls : List PriceLevel) (u : MBOUpdate)
    (h : SideInv better cap ls) : SideInv better cap (applyUpdate better cap ls u) := by
  obtain ⟨hs, hne, hd⟩ := h
  rcases hact : u.action
  case create =>
    simp only [applyUpdate, hact]
    exact ⟨truncate_sorted _ _ _ (insertLevel_sorted better htr htot _ _ _ hs),
      truncate_noempty _ _ (insertLevel_noempty better _ _ _ hne),
      truncate_depthOk _ _⟩
  case modify =>
    simp only [applyUpdate, hact]
    rcases hfo : findOrderPrice u.orderId ls with _ | ⟨p, o⟩
    · exact ⟨hs, hne, hd⟩
    · simp only []
      by_cases hp : p = u.price
      · rw [if_pos hp]
        refine ⟨setQuantity_sorted better _ _ _ hs, setQuantity_noempty _ _ _ hne, ?_⟩
        rcases hd with hd | hd
        · exact Or.inl hd
        · exact Or.inr (by rw [setQuantity_length]; exact hd)
      · rw [if_neg hp]
        exact ⟨truncate_sorted _ _ _ (insertLevel_sorted better htr htot _ _ _
            (cancelOrder_sorted better _ _ hs)),
          truncate_noempty _ _ (insertLevel_noempty better _ _ _
            (cancelOrder_noempty _ _ hne)),
          truncate_depthOk _ _⟩
  case cancel =>
    simp only [applyUpdate, hact]
    rcases hfo : findOrderPrice u.orderId ls with _ | ⟨p, o⟩
    · exact ⟨hs, hne, hd⟩
    · simp only []
      refine ⟨cancelOrder_sorted better _ _ hs, cancelOrder_noempty _ _ hne, ?_⟩
      rcases hd with hd | hd
      · exact Or.inl hd
      · exact Or.inr (Nat.le_trans (cancelOrder_length_le _ _) hd)

theorem applySide_sideInv (better : Int → Int → Bool)
    (htr : ∀ a c d, better a c = true → better c d = true → better a d = true)
    (htot : ∀ a c : Int, a ≠ c → better a c = true ∨ better c a = true)
    (cap : Nat) :
    ∀ (us : List MBOUpdate) (ls : List PriceLevel),
      SideInv better cap ls → SideInv better cap (applySide better cap ls us)
  | [], ls, h => h
  | u :: us, ls, h =>
    applySide_sideInv better htr htot cap us (applyUpdate better cap ls u)
      (applyUpdate_sideInv better htr htot cap ls u h)

theorem freshBook_inv (cap : Nat) : BookInv (freshBook cap) := by
  refine ⟨⟨?_, ?_, ?_⟩, ⟨?_, ?_, ?_⟩⟩ <;>
    simp [freshBook, SortedSide, NoEmptySide, DepthOk]

theorem applySequential_inv (bids asks : List MBOUpdate) (b : Book)
    (h : BookInv b) : BookInv (applySequential bids asks b) := by
  obtain ⟨hb, ha⟩ := h
  exact ⟨applySide_sideInv bidBetter bidBetter_trans bidBetter_total b.maxDepth bids b.bids hb,
    applySide_sideInv askBetter askBetter_trans askBetter_total b.maxDepth asks b.asks ha⟩

theorem applyNoisy_inv (b : Book) (u : MarketByOrderUpdate)
    (h : BookInv b) : BookInv (applyNoisy b u).1 := by
  unfold applyNoisy
  split
  · exact h
  · exact applySequential_inv u.bids u.asks b h

theorem clearBook_inv (b : Book) : BookInv (clearBook b) := by
  refine ⟨⟨?_, ?_, ?_⟩, ⟨?_, ?_, ?_⟩⟩ <;>
    simp [clearBook, SortedSide, NoEmptySide, DepthOk]

/-- Every reachable book state satisfies the structural invariant: both sides
sorted strictly best-first, no empty price level, and the depth bound
respected. -/
theorem reachable_inv (b : Book) (h : Reachable b) : BookInv b := by
  induction h with
  | init cap => exact freshBook_inv cap
  | seqStep b bids asks _ ih => exact applySequential_inv bids asks b ih
  | noisyStep b u _ ih => exact applyNoisy_inv b u ih
  | clearStep b _ _ => exact clearBook_inv b

theorem insertLevel_append_new (better : Int → Int → Bool)
    (hasym : ∀ a c : Int, better a c = true → better c a = false)
    (p : Int) (o : Order) :
    ∀ done : List PriceLevel, (∀ m ∈ done, better m.price p = true) →
      insertLevel better p o done = done ++ [⟨p, [o]⟩]
  | [], _ => rfl
  | m :: rest, h => by
    have hm := h m (List.mem_cons_self ..)
    have hne : p ≠ m.price := by
      intro he
      rw [he] at hm
      have h2 := hasym _ _ hm
      rw [h2] at hm
      exact Bool.noConfusion hm
    have hnb : better p m.price = false := hasym _ _ hm
    simp only [insertLevel, if_neg hne, hnb, Bool.false_eq_true, if_false,
      List.cons_append, List.cons.injEq, true_and]
    exact insertLevel_append_new better hasym p o rest
      (fun x hx => h x (List.mem_cons_of_mem _ hx))

theorem insertLevel_append_last (better : Int → Int → Bool)
    (hasym : ∀ a c : Int, better a c = true → better c a = false)
    (p : Int) (o : Order) (os : List Order) :
    ∀ done : List PriceLevel, (∀ m ∈ done, better m.price p = true) →
      insertLevel better p o (done ++ [⟨p, os⟩]) = done ++ [⟨p, os ++ [o]⟩]
  | [], _ => by simp [insertLevel]
  | m :: rest, h => by
    have hm := h m (List.mem_cons_self ..)
    have hne : p ≠ m.price := by
      intro he
      rw [he] at hm
      have h2 := hasym _ _ hm
      rw [h2] at hm
      exact Bool.noConfusion hm
    have hnb : better p m.price = false := hasym _ _ hm
    simp only [List.cons_append, insertLevel, if_neg hne, hnb, Bool.false_eq_true,
      if_false, List.cons.injEq, true_and]
    exact insertLevel_append_last better hasym p o os rest
      (fun x hx => h x (List.mem_cons_of_mem _ hx))

theorem applySide_snapshot_orders (better : Int → Int → Bool)
    (hasym : ∀ a c : Int, better a c = true → better c a = false)
    (cap : Nat) (p : Int) :
    ∀ (os os₀ : List Order) (done : List PriceLevel),
      (∀ m ∈ done, better m.price p = true) →
      (cap = 0 ∨ done.length + 1 ≤ cap) →
      applySide better cap (done ++ [⟨p, os₀⟩])
        (os.map (fun o => ⟨o.orderId, p, o.quantity, UpdateAction.create⟩)) =
        done ++ [⟨p, os₀ ++ os⟩]
  | [], os₀, done, _, _ => by simp [applySide]
  | o :: os, os₀, done, h, hcap => by
    simp only [List.map_cons, applySide, List.foldl_cons]
    have h1 : applyUpdate better cap (done ++ [⟨p, os₀⟩])
        ⟨o.orderId, p, o.quantity, UpdateAction.create⟩ =
        done ++ [⟨p, os₀ ++ [o]⟩] := by
      simp only [applyUpdate]
      rw [insertLevel_append_last better hasym p o os₀ done h]
      exact truncate_eq_self cap _ (by
        rcases hcap with hc | hc
        · exact Or.inl hc
        · exact Or.inr (by simpa using hc))
    rw [h1]
    have h2 := applySide_snapshot_orders better hasym cap p os (os₀ ++ [o]) done h hcap
    simp only [applySide] at h2
    rw [h2, List.append_assoc]
    simp

theorem applySide_snapshot (better : Int → Int → Bool)
    (hasym : ∀ a c : Int, better a c = true → better c a = false)
    (cap : Nat) :
    ∀ (ls done : List PriceLevel),
      SortedSide better (done ++ ls) → NoEmptySide ls →
      (cap = 0 ∨ (done ++ ls).length ≤ cap) →
      applySide better cap done (create_snapshot_side ls) = done ++ ls
  | [], done, _, _, _ => by simp [create_snapshot_side, applySide]
  | l :: ls, done, hsort, hne, hcap => by
    have hdl : ∀ m ∈ done, better m.price l.price = true := by
      intro m hm
      exact ((List.pairwise_append.mp hsort).2.2 m hm l (List.mem_cons_self ..))
    have hcap1 : cap = 0 ∨ done.length + 1 ≤ cap := by
      rcases hcap with hc | hc
      · exact Or.inl hc
      · refine Or.inr (Nat.le_trans ?_ hc)
        simp only [List.length_append, List.length_cons]
        omega
    obtain ⟨o, os, hos⟩ : ∃ o os, l.orders = o :: os := by
      rcases hlo : l.orders with _ | ⟨o, os⟩
      · exact absurd hlo (hne l (List.mem_cons_self ..))
      · exact ⟨o, os, rfl⟩
    simp only [create_snapshot_side, applySide, List.foldl_append]
    have hstep : List.foldl (applyUpdate better cap) done
        (l.orders.map (fun o => ⟨o.orderId, l.price, o.quantity, UpdateAction.create⟩)) =
        done ++ [l] := by
      rw [hos, List.map_cons, List.foldl_cons]
      have h1 : applyUpdate better cap done
          ⟨o.orderId, l.price, o.quantity, UpdateAction.create⟩ =
          done ++ [⟨l.price, [o]⟩] := by
        simp only [applyUpdate]
        rw [insertLevel_append_new better hasym l.price o done hdl]
        exact truncate_eq_self cap _ (by
          rcases hcap1 with hc | hc
          · exact Or.inl hc
          · exact Or.inr (by simpa using hc))
      rw [h1]
      have h2 := applySide_snapshot_orders better hasym cap l.price os [o] done hdl hcap1
      simp only [applySide] at h2
      rw [h2]
      simp only [List.singleton_append, ← hos]
    rw [hstep]
    have hre : done ++ [l] ++ ls = done ++ l :: ls := by
      rw [List.append_assoc]; rfl
    have := applySide_snapshot better hasym cap ls (done ++ [l])
      (by rw [hre]; exact hsort) (fun x hx => hne x (List.mem_cons_of_mem _ hx))
      (by rw [hre]; exact hcap)
    simp only [applySide] at this
    rw [this, hre]

/-- Replaying the full snapshot of a book satisfying the structural invariant
into the freshly cleared book rebuilds both sides exactly. -/
theorem replayed_sides (b : Book) (hinv : BookInv b) :
    (replayed b).bids = b.bids ∧ (replayed b).asks = b.asks := by
  obtain ⟨⟨hbs, hbn, hbd⟩, ⟨has, han, had⟩⟩ := hinv
  constructor
  · have := applySide_snapshot bidBetter bidBetter_asym b.maxDepth b.bids []
      (by simpa using hbs) hbn (by simpa using hbd)
    simpa [replayed, applySequential, clearBook, create_snapshot] using this
  · have := applySide_snapshot askBetter askBetter_asym b.maxDepth b.asks []
      (by simpa using has) han (by simpa using had)
    simpa [replayed, applySequential, clearBook, create_snapshot] using this

theorem sumQ_cons (o : Order) (os : List Order) :
    sumQ (o :: os) = o.quantity + sumQ os := by
  simp [sumQ]

theorem qposLevels_cons_of_not (l : PriceLevel) (ls : List PriceLevel)
    (oid : Nat) (h : levelHasOrder oid l = false) :
    qposLevels (l :: ls) oid = qposLevels ls oid := by
  unfold qposLevels
  rw [List.find?_cons_of_neg _ (by simp [h])]

theorem qpos_after_two_creates (better : Int → Int → Bool) (p : Int)
    (idA idB qA qB : Nat) (hAB : idA ≠ idB) :
    ∀ ls : List PriceLevel,
      (∀ l ∈ ls, (l.price == p) = false) →
      (∀ l ∈ ls, levelHasOrder idB l = false) →
      qposLevels (insertLevel better p ⟨idB, qB⟩ (insertLevel better p ⟨idA, qA⟩ ls)) idB =
        ⟨some qB, some qA, some (qA + qB)⟩
  | [], _, _ => by
    simp [insertLevel, qposLevels, levelHasOrder, sumQ, hAB]
  | l :: ls, hp, hb => by
    have hpne : p ≠ l.price := by
      have h1 := hp l (List.mem_cons_self ..)
      simp only [beq_eq_false_iff_ne, ne_eq] at h1
      exact fun he => h1 he.symm
    by_cases hbb : better p l.price = true
    · simp only [insertLevel, if_neg hpne, hbb, if_true, if_pos rfl]
      simp [qposLevels, levelHasOrder, sumQ, hAB]
    · simp only [insertLevel, if_neg hpne, hbb, Bool.false_eq_true, if_false]
      rw [qposLevels_cons_of_not l _ idB (hb l (List.mem_cons_self ..))]
      exact qpos_after_two_creates better p idA idB qA qB hAB ls
        (fun x hx => hp x (List.mem_cons_of_mem _ hx))
        (fun x hx => hb x (List.mem_cons_of_mem _ hx))

theorem foldl_addQty_posInf : ∀ os : List Order,
    os.foldl (fun a o => addQty a o.quantity) .posInf = .posInf
  | [] => rfl
  | _ :: os => foldl_addQty_posInf os

theorem foldl_addQty_val : ∀ (os : List Order) (m : Nat), m ≤ QBOUND →
    os.foldl (fun a o => addQty a o.quantity) (.val m) =
      if m + sumQ os ≤ QBOUND then .val (m + sumQ os) else .posInf
  | [], m, hm => by simp [sumQ, hm]
  | o :: os, m, hm => by
    rw [List.foldl_cons, sumQ_cons]
    by_cases h1 : m + o.quantity ≤ QBOUND
    · rw [show addQty (.val m) o.quantity = .val (m + o.quantity) from by
        simp [addQty, h1]]
      rw [foldl_addQty_val os (m + o.quantity) h1]
      have h2 : m + (o.quantity + sumQ os) = m + o.quantity + sumQ os := by omega
      rw [h2]
    · rw [show addQty (.val m) o.quantity = AggQty.posInf from by
        simp [addQty, h1]]
      rw [foldl_addQty_posInf]
      have h2 : ¬ m + (o.quantity + sumQ os) ≤ QBOUND := by omega
      rw [if_neg h2]

/-- `aggregate` reports the exact sum while it fits the accumulator bound and
the positive-infinity sentinel beyond it — never a wrapped or truncated
value. -/
theorem aggregate_eq (os : List Order) :
    aggregate os = if sumQ os ≤ QBOUND then .val (sumQ os) else .posInf := by
  have := foldl_addQty_val os 0 (by simp [QBOUND])
  simpa [aggregate] using this

theorem mem_truncate (cap : Nat) (ls : List PriceLevel) (m : PriceLevel)
    (hm : m ∈ truncate cap ls) : m ∈ ls := by
  unfold truncate at hm
  split at hm
  · exact hm
  · exact List.mem_of_mem_take hm

theorem applySide_two_creates (better : Int → Int → Bool) (p : Int)
    (idA idB qA qB : Nat) (ls : List PriceLevel) :
    applySide better 0 ls
      [⟨idA, p, qA, UpdateAction.create⟩, ⟨idB, p, qB, UpdateAction.create⟩] =
      insertLevel better p ⟨idB, qB⟩ (insertLevel better p ⟨idA, qA⟩ ls) := by
  simp [applySide, applyUpdate, truncate]

end MBO

open MBO

/-- C1: for every reachable book state, extracting a full snapshot via
create_snapshot and replaying the emitted per-side MBOUpdate lists into a
freshly cleared book configured with the same reference data reproduces
exactly the same set of (side, price, order id, quantity) tuples as the
original book. -/
theorem C1_round_trip (b : Book) (h : Reachable b) :
    ∀ t : Side × Int × Nat × Nat,
      t ∈ bookOrders (replayed b) ↔ t ∈ bookOrders b := by
  obtain ⟨hb, ha⟩ := replayed_sides b (reachable_inv b h)
  intro t
  unfold bookOrders
  rw [hb, ha]

theorem C1_round_trip_witness :
    ((Side.buy, (100 : Int), 1, 5) ∈ bookOrders (replayed demoBook) ↔
      (Side.buy, (100 : Int), 1, 5) ∈ bookOrders demoBook) :=
  C1_round_trip demoBook (Reachable.seqStep _ _ _ (Reachable.init 0)) _

/-- C2: for every book state reachable by any sequence of update operations
from a freshly constructed book, the bid price levels are strictly descending
by price and the ask price levels are strictly ascending by price, with no
duplicate price per side (strictness forbids duplicates). -/
theorem C2_sortedness (b : Book) (h : Reachable b) :
    b.bids.Pairwise (fun a c => c.price < a.price) ∧
    b.asks.Pairwise (fun a c => a.price < c.price) := by
  obtain ⟨⟨hbs, _, _⟩, ⟨has, _, _⟩⟩ := reachable_inv b h
  constructor
  · exact hbs.imp (fun hx => by simpa [bidBetter] using hx)
  · exact has.imp (fun hx => by simpa [askBetter] using hx)

theorem C2_sortedness_witness :
    demoBook.bids.Pairwise (fun a c => c.price < a.price) ∧
    demoBook.asks.Pairwise (fun a c => a.price < c.price) :=
  C2_sortedness demoBook (Reachable.seqStep _ _ _ (Reachable.init 0))

/-- C3: for every reachable book state every price level present on either
side contains at least one order, and cancelling the last order of a level
removes the level in the same applyUpdate operation. -/
theorem C3_no_empty_levels (b : Book) (h : Reachable b) :
    (∀ l ∈ b.bids, l.orders ≠ []) ∧ (∀ l ∈ b.asks, l.orders ≠ []) ∧
    (∀ (better : Int → Int → Bool) (cap : Nat) (p : Int) (oid q : Nat)
      (ls : List PriceLevel),
      applyUpdate better cap (⟨p, [⟨oid, q⟩]⟩ :: ls) ⟨oid, p, q, .cancel⟩ = ls) := by
  obtain ⟨⟨_, hbn, _⟩, ⟨_, han, _⟩⟩ := reachable_inv b h
  refine ⟨hbn, han, ?_⟩
  intro better cap p oid q ls
  simp [applyUpdate, findOrderPrice, cancelOrder, levelHasOrder]

theorem C3_no_empty_levels_witness :
    (∀ l ∈ demoBook.bids, l.orders ≠ []) ∧ (∀ l ∈ demoBook.asks, l.orders ≠ []) ∧
    applyUpdate bidBetter 0 [⟨100, [⟨7, 5⟩]⟩] ⟨7, 100, 5, .cancel⟩ = [] :=
  ⟨(C3_no_empty_levels demoBook (Reachable.seqStep _ _ _ (Reachable.init 0))).1,
   (C3_no_empty_levels demoBook (Reachable.seqStep _ _ _ (Reachable.init 0))).2.1,
   (C3_no_empty_levels demoBook (Reachable.seqStep _ _ _ (Reachable.init 0))).2.2
     bidBetter 0 100 7 5 []⟩

/-- C5: when a side/price has no price level, total_quantity and
accumulated_quantity return the not-a-number sentinel (modelled as `none`),
and when an order id is absent from the indicated side, get_queue_position
returns a Position whose quantity, before and total fields are all the
sentinel. -/
theorem C5_absence_nan (b : Book) (s : Side) (p : Int) (oid : Nat)
    (hlvl : levelExists b s p = false) (hord : orderExists b s oid = false) :
    total_quantity b s p = none ∧
    accumulated_quantity b s p false = none ∧
    accumulated_quantity b s p true = none ∧
    get_queue_position b s oid = ⟨none, none, none⟩ := by
  have hfind : (sideLevels b s).find? (fun l => l.price == p) = none := by
    rw [List.find?_eq_none]
    intro l hl
    simp only [levelExists, List.any_eq_false] at hlvl
    simpa using hlvl l hl
  have hfind2 : (sideLevels b s).find? (levelHasOrder oid) = none := by
    rw [List.find?_eq_none]
    intro l hl
    simp only [orderExists, List.any_eq_false] at hord
    simpa using hord l hl
  refine ⟨?_, ?_, ?_, ?_⟩
  · simp [total_quantity, hfind]
  · simp [accumulated_quantity, hfind]
  · simp [accumulated_quantity, hfind]
  · simp [get_queue_position, qposLevels, hfind2]

theorem C5_absence_nan_witness :
    total_quantity (freshBook 0) .buy 42 = none ∧
    accumulated_quantity (freshBook 0) .buy 42 false = none ∧
    accumulated_quantity (freshBook 0) .buy 42 true = none ∧
    get_queue_position (freshBook 0) .buy 9 = ⟨none, none, none⟩ :=
  C5_absence_nan (freshBook 0) .buy 42 9 (by decide) (by decide)

/-- C6: for every reachable book with a positive depth bound,
extract(layers, max_depth = 0) returns at most max_depth layers per side and
at most max_depth price levels per side are retained in the store; with
max_depth = 2 that is at most 2 layers per side. -/
theorem C6_depth_bound (b : Book) (h : Reachable b) (hpos : 0 < b.maxDepth) :
    (extract_layers b 0).1.length ≤ b.maxDepth ∧
    (extract_layers b 0).2.length ≤ b.maxDepth ∧
    b.bids.length ≤ b.maxDepth ∧ b.asks.length ≤ b.maxDepth := by
  obtain ⟨⟨_, _, hbd⟩, ⟨_, _, had⟩⟩ := reachable_inv b h
  have hb : b.bids.length ≤ b.maxDepth := by
    rcases hbd with h0 | h0
    · omega
    · exact h0
  have ha : b.asks.length ≤ b.maxDepth := by
    rcases had with h0 | h0
    · omega
    · exact h0
  refine ⟨?_, ?_, hb, ha⟩
  · simpa [extract_layers, layersOfSide, truncate] using hb
  · simpa [extract_layers, layersOfSide, truncate] using ha

theorem C6_depth_bound_witness :
    (extract_layers demoBook2 0).1.length ≤ 2 ∧
    (extract_layers demoBook2 0).2.length ≤ 2 ∧
    demoBook2.bids.length ≤ 2 ∧ demoBook2.asks.length ≤ 2 :=
  C6_depth_bound demoBook2 (Reachable.seqStep _ _ _ (Reachable.init 2)) (by decide)

/-- C7: feeding a MarketByOrderUpdate whose exchange sequence number is less
than or equal to the book's current exchange_sequence leaves the book
unchanged and raises SequenceRegressionWarning (the Boolean flag of the
result); and for every update the book's accepted sequence is monotonically
non-decreasing. -/
theorem C7_sequence_monotonic (b : Book) (u : MarketByOrderUpdate)
    (h : u.exchangeSequence ≤ b.exchangeSequence) :
    applyNoisy b u = (b, true) ∧
    ∀ v : MarketByOrderUpdate,
      b.exchangeSequence ≤ (applyNoisy b v).1.exchangeSequence := by
  refine ⟨by simp [applyNoisy, h], ?_⟩
  intro v
  unfold applyNoisy
  by_cases hv : v.exchangeSequence ≤ b.exchangeSequence
  · simp [hv]
  · simp only [hv, if_false]
    omega

theorem C7_sequence_monotonic_witness :
    applyNoisy demoBook ⟨[], [], 0⟩ = (demoBook, true) ∧
    ∀ v : MarketByOrderUpdate,
      demoBook.exchangeSequence ≤ (applyNoisy demoBook v).1.exchangeSequence :=
  C7_sequence_monotonic demoBook ⟨[], [], 0⟩ (by decide)

/-- C4 counterexample: the claim quantifies over every book, but on a book
that already holds a resting order at the same side and price (here order 10,
ask 100, qty 1), creating A = (1, 100, qty 2) then B = (2, 100, qty 3) gives
queue position before = 3, not quantity(A) = 2. -/
theorem C4_counterexample :
    (get_queue_position
      (applyOnSide (applyOnSide (freshBook 0) .sell [⟨10, 100, 1, .create⟩])
        .sell [⟨1, 100, 2, .create⟩, ⟨2, 100, 3, .create⟩]) .sell 2).before = some 3 ∧
    (get_queue_position
      (applyOnSide (applyOnSide (freshBook 0) .sell [⟨10, 100, 1, .create⟩])
        .sell [⟨1, 100, 2, .create⟩, ⟨2, 100, 3, .create⟩]) .sell 2).before ≠ some 2 := by
  decide

/-- C4 (amended): for every unbounded-depth book with no resting order at the
given side and price and idB fresh on that side, applying create of A then
create of B at that side and price makes get_queue_position for B report
before = quantity(A) (and quantity = quantity(B), total = sum); Scenario B is
the instance on a fresh book. -/
theorem C4_fifo_priority (b : Book) (s : Side) (p : Int) (idA idB qA qB : Nat)
    (hdepth : b.maxDepth = 0)
    (hlvl : levelExists b s p = false)
    (hB : orderExists b s idB = false)
    (hAB : idA ≠ idB) :
    get_queue_position
      (applyOnSide b s [⟨idA, p, qA, .create⟩, ⟨idB, p, qB, .create⟩]) s idB =
      ⟨some qB, some qA, some (qA + qB)⟩ := by
  have hp : ∀ l ∈ sideLevels b s, (l.price == p) = false := by
    intro l hl
    simp only [levelExists, List.any_eq_false] at hlvl
    simpa using hlvl l hl
  have hb2 : ∀ l ∈ sideLevels b s, levelHasOrder idB l = false := by
    intro l hl
    simp only [orderExists, List.any_eq_false] at hB
    simpa using hB l hl
  cases s with
  | buy =>
    show qposLevels (applySide bidBetter b.maxDepth b.bids
      [⟨idA, p, qA, .create⟩, ⟨idB, p, qB, .create⟩]) idB = _
    rw [hdepth, applySide_two_creates]
    exact qpos_after_two_creates bidBetter p idA idB qA qB hAB b.bids hp hb2
  | sell =>
    show qposLevels (applySide askBetter b.maxDepth b.asks
      [⟨idA, p, qA, .create⟩, ⟨idB, p, qB, .create⟩]) idB = _
    rw [hdepth, applySide_two_creates]
    exact qpos_after_two_creates askBetter p idA idB qA qB hAB b.asks hp hb2

theorem C4_fifo_priority_witness :
    get_queue_position
      (applyOnSide (freshBook 0) .sell [⟨1, 100, 2, .create⟩, ⟨2, 100, 3, .create⟩])
      .sell 2 = ⟨some 3, some 2, some 5⟩ :=
  C4_fifo_priority (freshBook 0) .sell 100 1 2 2 3 rfl (by decide) (by decide)
    (by decide)

/-- C8: every Layer produced by extract(layers, ·) reports, for its source
price level, the exact aggregated quantity when the sum fits the accumulator
bound and the positive-infinity sentinel when it exceeds it — never a wrapped
or truncated finite number; the condition is surfaced in the emitted Layer,
extraction itself being total. -/
theorem C8_overflow_sentinel (b : Book) (cap : Nat) (L : Layer)
    (hL : L ∈ (extract_layers b cap).1 ∨ L ∈ (extract_layers b cap).2) :
    ∃ l : PriceLevel, (l ∈ b.bids ∨ l ∈ b.asks) ∧ L.price = l.price ∧
      L.count = l.orders.length ∧
      L.quantity = (if sumQ l.orders ≤ QBOUND then AggQty.val (sumQ l.orders)
        else AggQty.posInf) := by
  rcases hL with hL | hL
  · simp only [extract_layers, layersOfSide] at hL
    rcases List.mem_map.mp hL with ⟨l, hl, hfl⟩
    exact ⟨l, Or.inl (mem_truncate _ _ _ hl), by rw [← hfl], by rw [← hfl],
      by rw [← hfl]; exact aggregate_eq l.orders⟩
  · simp only [extract_layers, layersOfSide] at hL
    rcases List.mem_map.mp hL with ⟨l, hl, hfl⟩
    exact ⟨l, Or.inr (mem_truncate _ _ _ hl), by rw [← hfl], by rw [← hfl],
      by rw [← hfl]; exact aggregate_eq l.orders⟩

theorem C8_overflow_sentinel_witness :
    ∃ l : PriceLevel, (l ∈ demoBookBig.bids ∨ l ∈ demoBookBig.asks) ∧
      (100 : Int) = l.price ∧ 2 = l.orders.length ∧
      AggQty.posInf = (if sumQ l.orders ≤ QBOUND then AggQty.val (sumQ l.orders)
        else AggQty.posInf) :=
  C8_overflow_sentinel demoBookBig 0 ⟨100, AggQty.posInf, 2⟩ (Or.inl (by decide))

theorem enum_cast_name_eq (s : String) :
    roq.RateLimitType.enum_cast_name s =
      (if s = "UNDEFINED" then some 0 else if s = "ORDER_ACTION" then some 1
       else if s = "CREATE_ORDER" then some 2 else none) := by
  by_cases h0 : s = "UNDEFINED"
  · subst h0; decide
  · by_cases h1 : s = "ORDER_ACTION"
    · subst h1; decide
    · by_cases h2 : s = "CREATE_ORDER"
      · subst h2; decide
      · have e0 : ("UNDEFINED" == s) = false := beq_eq_false_iff_ne.mpr (Ne.symm h0)
        have e1 : ("ORDER_ACTION" == s) = false := beq_eq_false_iff_ne.mpr (Ne.symm h1)
        have e2 : ("CREATE_ORDER" == s) = false := beq_eq_false_iff_ne.mpr (Ne.symm h2)
        simp [roq.RateLimitType.enum_cast_name, roq.RateLimitType.enumNames,
          roq.RateLimitType.enumValues, e0, e1, e2, h0, h1, h2]

theorem ofUint8_type_mem (v : Nat) :
    (roq.RateLimitType.ofUint8 v).type_ ∈ roq.RateLimitType.enumValues := by
  unfold roq.RateLimitType.ofUint8 roq.RateLimitType.enum_cast_value
  by_cases h : v % 256 ∈ roq.RateLimitType.enumValues
  · simpa [h] using h
  · simp only [roq.RateLimitType.enumValues, List.mem_cons,
      List.not_mem_nil, or_false] at h ⊢
    simp [h]

theorem ofString_type_mem (s : String) :
    (roq.RateLimitType.ofString s).type_ ∈ roq.RateLimitType.enumValues := by
  have h := enum_cast_name_eq s
  unfold roq.RateLimitType.ofString
  rw [h]
  by_cases h0 : s = "UNDEFINED"
  · simp [h0, roq.RateLimitType.enumValues]
  · by_cases h1 : s = "ORDER_ACTION"
    · simp [h0, h1, roq.RateLimitType.enumValues]
    · by_cases h2 : s = "CREATE_ORDER"
      · simp [h0, h1, h2, roq.RateLimitType.enumValues]
      · simp [h0, h1, h2, roq.RateLimitType.enumValues]

theorem to_index_isSome_of_mem (x : Nat)
    (hx : x ∈ roq.RateLimitType.enumValues) :
    ((roq.RateLimitType.mk x).to_index).isSome = true := by
  fin_cases hx <;> decide

/-- C9: for every uint8_t and every string input, the explicit RateLimitType
constructors yield a declared enumerator — an input matching a declared
enumerator value/name maps to that enumerator and every other input maps to
UNDEFINED (value 0) — with no silent truncation or wraparound. -/
theorem C9_validated_enum :
    ∀ (v : Nat) (s : String),
      (roq.RateLimitType.ofUint8 v).type_ ∈ roq.RateLimitType.enumValues ∧
      (roq.RateLimitType.ofUint8 v).type_ =
        (if v % 256 = 1 then 1 else if v % 256 = 2 then 2 else 0) ∧
      (roq.RateLimitType.ofString s).type_ ∈ roq.RateLimitType.enumValues ∧
      (roq.RateLimitType.ofString s).type_ =
        (if s = "ORDER_ACTION" then 1 else if s = "CREATE_ORDER" then 2 else 0) := by
  intro v s
  refine ⟨ofUint8_type_mem v, ?_, ofString_type_mem s, ?_⟩
  · by_cases h1 : v % 256 = 1
    · simp [roq.RateLimitType.ofUint8, roq.RateLimitType.enum_cast_value,
        roq.RateLimitType.enumValues, h1]
    · by_cases h2 : v % 256 = 2
      · simp [roq.RateLimitType.ofUint8, roq.RateLimitType.enum_cast_value,
          roq.RateLimitType.enumValues, h1, h2]
      · by_cases h0 : v % 256 = 0
        · simp [roq.RateLimitType.ofUint8, roq.RateLimitType.enum_cast_value,
            roq.RateLimitType.enumValues, h0, h1, h2]
        · simp [roq.RateLimitType.ofUint8, roq.RateLimitType.enum_cast_value,
            roq.RateLimitType.enumValues, h0, h1, h2]
  · have h := enum_cast_name_eq s
    show (roq.RateLimitType.enum_cast_name s).getD 0 = _
    rw [h]
    by_cases h0 : s = "UNDEFINED"
    · subst h0; decide
    · by_cases h1 : s = "ORDER_ACTION"
      · subst h1; decide
      · by_cases h2 : s = "CREATE_ORDER"
        · subst h2; decide
        · simp [h0, h1, h2]

/-- C10 counterexample: the claim covers the implicit type_t constructor, but
type_t has the fixed underlying type uint8_t, so RateLimitType(
static_cast<type_t>(3)) is a public construction that stores 3 — not a
declared enumerator — and to_index finds no index: its throw branch is
reached. -/
theorem C10_counterexample :
    (roq.RateLimitType.ofTypeT 3).to_index = none ∧
    ¬ (roq.RateLimitType.ofTypeT 3).type_ ∈ roq.RateLimitType.enumValues := by
  decide

/-- C10 (amended): every RateLimitType produced by the default, uint8_t or
string constructor stores a declared enumerator and to_index returns an
index; the implicit type_t constructor yields a declared enumerator — and a
total to_index — exactly for arguments whose underlying value is a declared
enumerator, the throw branch being reachable only through a casted
non-enumerator type_t value. -/
theorem C10_to_index_total (v : Nat) (s : String) (t : Nat)
    (ht : t % 256 ∈ roq.RateLimitType.enumValues) :
    roq.RateLimitType.ctorDefault.to_index = some 0 ∧
    ((roq.RateLimitType.ofUint8 v).to_index).isSome = true ∧
    ((roq.RateLimitType.ofString s).to_index).isSome = true ∧
    ((roq.RateLimitType.ofTypeT t).to_index).isSome = true :=
  ⟨by decide, to_index_isSome_of_mem _ (ofUint8_type_mem v),
   to_index_isSome_of_mem _ (ofString_type_mem s),
   to_index_isSome_of_mem _ ht⟩

theorem C10_to_index_total_witness :
    roq.RateLimitType.ctorDefault.to_index = some 0 ∧
    ((roq.RateLimitType.ofUint8 7).to_index).isSome = true ∧
    ((roq.RateLimitType.ofString "nope").to_index).isSome = true ∧
    ((roq.RateLimitType.ofTypeT 2).to_index).isSome = true :=
  C10_to_index_total 7 "nope" 2 (by decide)
